import Mathlib

/-!
Verification of the `BBLCache` basic-block cache of
`src/lab1/ex_2/MyPinTool.cpp` (Pedro-Bernardo/CNV-labs).

The cache stores basic-block identifiers (pointer values, modelled as
`Nat`) in a deque, most-recently-inserted first.  `push` scans the deque
linearly; on a hit it only bumps `nHits`, on a miss it bumps `nMisses`,
pushes the identifier to the front and, if the deque then holds more than
`_max_size` entries, pops one entry from the back.  `CountBbl` bumps the
dynamic basic-block counter `bblCount` and then calls `push`.  The cache
is constructed from the `-n` knob, an `INT32` implicitly converted to the
`UINT32` constructor parameter `_max_size`.
-/

namespace CNVLabs

/-- State of `class BBLCache` (MyPinTool.cpp lines 18-58).  The deque
`blockCache` holds `BBL*` pointer values, modelled as `Nat`; the front of
the list is the front of the deque (most recently inserted). -/
structure BBLCache where
  blockCache : List Nat
  _max_size : Nat
  bblCount : Nat
  nMisses : Nat
  nHits : Nat
  deriving Repr, DecidableEq

/-- `BBLCache(UINT32 max_size)` (line 33): empty deque, counters start at
their in-class initialisers `0` (lines 29-31). -/
def BBLCache.init (max_size : Nat) : BBLCache :=
  { blockCache := [], _max_size := max_size, bblCount := 0, nMisses := 0, nHits := 0 }

/-- The linear membership scan of `push` (lines 44-49): iterate the deque
front to back and stop at the first block equal to `bbl`. -/
def scanPresent (cacheList : List Nat) (bbl : Nat) : Bool :=
  match cacheList with
  | [] => false
  | block :: rest => if bbl = block then true else scanPresent rest bbl

/-- `BBLCache::push` (lines 38-57): on a hit increment `nHits`; on a miss
increment `nMisses`, `push_front` the block and, if the deque size now
exceeds `_max_size`, `pop_back` once (`pop`, lines 24-26, modelled by
`List.dropLast`). -/
def BBLCache.push (c : BBLCache) (bbl : Nat) : BBLCache :=
  if scanPresent c.blockCache bbl then
    { c with nHits := c.nHits + 1 }
  else
    let inserted := bbl :: c.blockCache
    if inserted.length > c._max_size then
      { c with nMisses := c.nMisses + 1, blockCache := inserted.dropLast }
    else
      { c with nMisses := c.nMisses + 1, blockCache := inserted }

/-- `CountBbl` (lines 100-104): increment `bblCount`, then `push`. -/
def CountBbl (c : BBLCache) (bbl : Nat) : BBLCache :=
  BBLCache.push { c with bblCount := c.bblCount + 1 } bbl

/-- `BBLCache::get_size` (lines 35-37). -/
def BBLCache.get_size (c : BBLCache) : Nat :=
  c.blockCache.length

/-- A whole instrumented run: `CountBbl` is called once per executed basic
block, in program order. -/
def runCalls (c : BBLCache) (bbls : List Nat) : BBLCache :=
  bbls.foldl CountBbl c

/-- The implicit C++ conversion of the `INT32` knob value to the `UINT32`
constructor parameter at `new BBLCache(KnobSizeN.Value())` (line 165):
reduction modulo 2^32. -/
def int32ToUInt32 (n : Int) : Nat :=
  (n % (2 : Int) ^ 32).toNat

/-- The cache as `main` constructs it from the `-n` knob (line 165). -/
def mkCacheFromKnob (n : Int) : BBLCache :=
  BBLCache.init (int32ToUInt32 n)

/-! ### Basic lemmas about the scan and `push` -/

theorem scanPresent_iff (l : List Nat) (b : Nat) :
    scanPresent l b = true ↔ b ∈ l := by
  induction l with
  | nil => simp [scanPresent]
  | cons x xs ih =>
      by_cases hbx : b = x
      · simp [scanPresent, hbx]
      · simp [scanPresent, hbx, ih]

theorem scanPresent_eq_false (l : List Nat) (b : Nat) (h : b ∉ l) :
    scanPresent l b = false := by
  rcases hb : scanPresent l b with _ | _
  · rfl
  · exact absurd ((scanPresent_iff l b).mp hb) h

theorem push_hit (c : BBLCache) (b : Nat) (h : b ∈ c.blockCache) :
    c.push b = { c with nHits := c.nHits + 1 } := by
  unfold BBLCache.push
  rw [if_pos ((scanPresent_iff _ _).mpr h)]

theorem push_miss_evict (c : BBLCache) (b : Nat) (h : b ∉ c.blockCache)
    (hlen : (b :: c.blockCache).length > c._max_size) :
    c.push b = { c with nMisses := c.nMisses + 1,
                        blockCache := (b :: c.blockCache).dropLast } := by
  unfold BBLCache.push
  rw [if_neg (by simp [scanPresent_eq_false c.blockCache b h])]
  simp only [if_pos hlen]

theorem push_miss_no_evict (c : BBLCache) (b : Nat) (h : b ∉ c.blockCache)
    (hlen : ¬ (b :: c.blockCache).length > c._max_size) :
    c.push b = { c with nMisses := c.nMisses + 1,
                        blockCache := b :: c.blockCache } := by
  unfold BBLCache.push
  rw [if_neg (by simp [scanPresent_eq_false c.blockCache b h])]
  simp only [if_neg hlen]

theorem runCalls_append_one (c : BBLCache) (l : List Nat) (b : Nat) :
    runCalls c (l ++ [b]) = CountBbl (runCalls c l) b := by
  simp [runCalls, List.foldl_append]

theorem CountBbl_fields (c : BBLCache) (b : Nat) :
    (CountBbl c b).blockCache = (c.push b).blockCache ∧
    (CountBbl c b).nHits = (c.push b).nHits ∧
    (CountBbl c b).nMisses = (c.push b).nMisses ∧
    (CountBbl c b)._max_size = c._max_size ∧
    (CountBbl c b).bblCount = c.bblCount + 1 := by
  unfold CountBbl BBLCache.push
  by_cases hs : scanPresent c.blockCache b
  · simp [hs]
  · simp only [hs, Bool.false_eq_true, if_false]
    split <;> simp

/-! ### Step lemmas used by the invariants -/

theorem push_counts (c : BBLCache) (b : Nat) :
    (c.push b).nHits + (c.push b).nMisses = c.nHits + c.nMisses + 1 ∧
    (((c.push b).nHits = c.nHits + 1 ∧ (c.push b).nMisses = c.nMisses) ∨
      ((c.push b).nMisses = c.nMisses + 1 ∧ (c.push b).nHits = c.nHits)) := by
  unfold BBLCache.push
  by_cases hs : scanPresent c.blockCache b
  · simp [hs]; omega
  · simp only [hs, Bool.false_eq_true, if_false]
    split <;> simp <;> omega

theorem push_max_size (c : BBLCache) (b : Nat) :
    (c.push b)._max_size = c._max_size := by
  unfold BBLCache.push
  by_cases hs : scanPresent c.blockCache b
  · simp [hs]
  · simp only [hs, Bool.false_eq_true, if_false]
    split <;> rfl

theorem push_length_le (c : BBLCache) (b : Nat)
    (h : c.blockCache.length ≤ c._max_size) :
    (c.push b).blockCache.length ≤ c._max_size := by
  unfold BBLCache.push
  by_cases hs : scanPresent c.blockCache b
  · simpa [hs] using h
  · simp only [hs, Bool.false_eq_true, if_false]
    split
    · simpa using h
    · next hlen => simpa using Nat.not_lt.mp (by simpa using hlen)

theorem push_nodup (c : BBLCache) (b : Nat) (h : c.blockCache.Nodup) :
    (c.push b).blockCache.Nodup := by
  unfold BBLCache.push
  by_cases hs : scanPresent c.blockCache b
  · simpa [hs] using h
  · have hb : b ∉ c.blockCache := fun hmem =>
      hs ((scanPresent_iff _ _).mpr hmem)
    have hcons : (b :: c.blockCache).Nodup := List.nodup_cons.mpr ⟨hb, h⟩
    simp only [hs, Bool.false_eq_true, if_false]
    split
    · exact ((b :: c.blockCache).dropLast_sublist).nodup hcons
    · exact hcons

theorem CountBbl_max_size (c : BBLCache) (b : Nat) :
    (CountBbl c b)._max_size = c._max_size :=
  (CountBbl_fields c b).2.2.2.1

theorem runCalls_cons (c : BBLCache) (b : Nat) (l : List Nat) :
    runCalls c (b :: l) = runCalls (CountBbl c b) l := rfl

theorem runCalls_max_size (c : BBLCache) (l : List Nat) :
    (runCalls c l)._max_size = c._max_size := by
  induction l generalizing c with
  | nil => rfl
  | cons x xs ih => rw [runCalls_cons, ih, CountBbl_max_size]

theorem runCalls_counts (c : BBLCache) (l : List Nat)
    (h : c.nHits + c.nMisses = c.bblCount) :
    (runCalls c l).nHits + (runCalls c l).nMisses = (runCalls c l).bblCount := by
  induction l generalizing c with
  | nil => exact h
  | cons x xs ih =>
      rw [runCalls_cons]
      refine ih _ ?_
      have hf := CountBbl_fields c x
      have hp := (push_counts c x).1
      omega

theorem runCalls_length_le (c : BBLCache) (l : List Nat)
    (h : c.blockCache.length ≤ c._max_size) :
    (runCalls c l).blockCache.length ≤ c._max_size := by
  induction l generalizing c with
  | nil => exact h
  | cons x xs ih =>
      rw [runCalls_cons]
      have hstep : (CountBbl c x).blockCache.length ≤ (CountBbl c x)._max_size := by
        rw [(CountBbl_fields c x).1, CountBbl_max_size]
        exact push_length_le c x h
      simpa [CountBbl_max_size] using ih (CountBbl c x) hstep

theorem runCalls_nodup (c : BBLCache) (l : List Nat)
    (h : c.blockCache.Nodup) :
    (runCalls c l).blockCache.Nodup := by
  induction l generalizing c with
  | nil => exact h
  | cons x xs ih =>
      rw [runCalls_cons]
      refine ih _ ?_
      rw [(CountBbl_fields c x).1]
      exact push_nodup c x h

/-! ### Claim theorems -/

/-- Claim C1: for every capacity and every sequence of record calls starting
from a fresh cache, `nHits + nMisses = bblCount` holds after the run; and
each single `CountBbl` call increments `bblCount` by one and exactly one of
`nHits` or `nMisses` by one. -/
theorem C1_hit_miss_total (cap : Nat) (l : List Nat) (c : BBLCache) (b : Nat) :
    (runCalls (BBLCache.init cap) l).nHits + (runCalls (BBLCache.init cap) l).nMisses
      = (runCalls (BBLCache.init cap) l).bblCount ∧
    (CountBbl c b).bblCount = c.bblCount + 1 ∧
    (((CountBbl c b).nHits = c.nHits + 1 ∧ (CountBbl c b).nMisses = c.nMisses) ∨
      ((CountBbl c b).nMisses = c.nMisses + 1 ∧ (CountBbl c b).nHits = c.nHits)) := by
  refine ⟨runCalls_counts _ l rfl, (CountBbl_fields c b).2.2.2.2, ?_⟩
  have hf := CountBbl_fields c b
  have hp := (push_counts c b).2
  rcases hp with ⟨h1, h2⟩ | ⟨h1, h2⟩
  · exact Or.inl ⟨by rw [hf.2.1, h1], by rw [hf.2.2.1, h2]⟩
  · exact Or.inr ⟨by rw [hf.2.2.1, h1], by rw [hf.2.1, h2]⟩

/-- Claim C2: for every capacity ≥ 1 and every record sequence from a fresh
cache, `get_size ≤ capacity` afterwards; and a miss inserts the identifier
at the front, removing exactly the one oldest entry (`pop_back`, i.e.
`dropLast` of the inserted deque) in the same call exactly when the entry
count exceeds the capacity. -/
theorem C2_size_le_capacity (cap : Nat) (hcap : 1 ≤ cap) (l : List Nat)
    (c : BBLCache) (b : Nat) (hb : b ∉ c.blockCache) :
    (runCalls (BBLCache.init cap) l).get_size ≤ cap ∧
    ((b :: c.blockCache).length > c._max_size →
      (c.push b).blockCache = (b :: c.blockCache).dropLast) ∧
    (¬ (b :: c.blockCache).length > c._max_size →
      (c.push b).blockCache = b :: c.blockCache) := by
  refine ⟨?_, ?_, ?_⟩
  · exact runCalls_length_le (BBLCache.init cap) l (by simp [BBLCache.init])
  · intro hlen
    rw [push_miss_evict c b hb hlen]
  · intro hlen
    rw [push_miss_no_evict c b hb hlen]

/-- Witness for C2 at capacity 2, run [5, 6, 7], and a miss push of 9 onto a
fresh cache of capacity 1. -/
theorem C2_size_le_capacity_witness :
    (runCalls (BBLCache.init 2) [5, 6, 7]).get_size ≤ 2 ∧
    ((9 :: (BBLCache.init 1).blockCache).length > (BBLCache.init 1)._max_size →
      ((BBLCache.init 1).push 9).blockCache
        = (9 :: (BBLCache.init 1).blockCache).dropLast) ∧
    (¬ (9 :: (BBLCache.init 1).blockCache).length > (BBLCache.init 1)._max_size →
      ((BBLCache.init 1).push 9).blockCache = 9 :: (BBLCache.init 1).blockCache) :=
  C2_size_le_capacity 2 (by decide) [5, 6, 7] (BBLCache.init 1) 9 (by decide)

/-- Claim C8: the deque never holds duplicate identifiers, for every
capacity and every record sequence from a fresh cache. -/
theorem C8_no_duplicates (cap : Nat) (l : List Nat) :
    (runCalls (BBLCache.init cap) l).blockCache.Nodup :=
  runCalls_nodup (BBLCache.init cap) l (by simp [BBLCache.init])

/-! ### Capacity-zero behaviour -/

theorem CountBbl_zero_cap (c : BBLCache) (x : Nat)
    (hc : c.blockCache = []) (hm : c._max_size = 0) :
    CountBbl c x
      = { blockCache := [], _max_size := 0, bblCount := c.bblCount + 1,
          nMisses := c.nMisses + 1, nHits := c.nHits } := by
  unfold CountBbl BBLCache.push
  simp [hc, hm, scanPresent]

theorem runCalls_zero_cap (c : BBLCache) (l : List Nat)
    (hc : c.blockCache = []) (hm : c._max_size = 0) :
    (runCalls c l).blockCache = [] ∧ (runCalls c l).nHits = c.nHits ∧
    (runCalls c l).nMisses = c.nMisses + l.length := by
  induction l generalizing c with
  | nil => exact ⟨hc, rfl, rfl⟩
  | cons x xs ih =>
      rw [runCalls_cons, CountBbl_zero_cap c x hc hm]
      have h := ih { blockCache := [], _max_size := 0, bblCount := c.bblCount + 1,
                     nMisses := c.nMisses + 1, nHits := c.nHits } rfl rfl
      refine ⟨h.1, h.2.1, ?_⟩
      rw [h.2.2]
      simp [Nat.add_assoc, Nat.add_comm 1 xs.length]

/-- Claim C9: with capacity 0, every record call is a miss and the cache is
empty after every call; the identifier pushed on a reachable capacity-0
state is inserted and immediately evicted within the same call. -/
theorem C9_capacity_zero (l : List Nat) (b : Nat) :
    (runCalls (BBLCache.init 0) l).blockCache = [] ∧
    (runCalls (BBLCache.init 0) l).get_size = 0 ∧
    (runCalls (BBLCache.init 0) l).nHits = 0 ∧
    (runCalls (BBLCache.init 0) l).nMisses = l.length ∧
    (CountBbl (runCalls (BBLCache.init 0) l) b).blockCache = [] ∧
    (CountBbl (runCalls (BBLCache.init 0) l) b).nMisses = l.length + 1 := by
  have h := runCalls_zero_cap (BBLCache.init 0) l rfl rfl
  have hmax : (runCalls (BBLCache.init 0) l)._max_size = 0 :=
    runCalls_max_size (BBLCache.init 0) l
  have hstep := CountBbl_zero_cap (runCalls (BBLCache.init 0) l) b h.1 hmax
  refine ⟨h.1, ?_, by simpa [BBLCache.init] using h.2.1,
          by simpa [BBLCache.init] using h.2.2, ?_, ?_⟩
  · simp [BBLCache.get_size, h.1]
  · rw [hstep]
  · rw [hstep]
    simpa [BBLCache.init] using h.2.2

/-- Claim C3: recording a present identifier (a hit) leaves the deque
completely unchanged and only bumps `nHits` and `bblCount`; in particular,
on deque `[a, b, c]` with capacity 3, recording `b` leaves `[a, b, c]`, and
a subsequent miss on `d` evicts `c`, yielding `[d, a, b]`. -/
theorem C3_hit_no_promotion (st : BBLCache) (x : Nat) (hx : x ∈ st.blockCache)
    (a b c d t m k : Nat)
    (hab : a ≠ b) (hac : a ≠ c) (hbc : b ≠ c)
    (hda : d ≠ a) (hdb : d ≠ b) (hdc : d ≠ c) :
    (CountBbl st x).blockCache = st.blockCache ∧
    (CountBbl st x).nMisses = st.nMisses ∧
    (CountBbl st x).nHits = st.nHits + 1 ∧
    (CountBbl st x).bblCount = st.bblCount + 1 ∧
    (CountBbl { blockCache := [a, b, c], _max_size := 3, bblCount := t,
                nMisses := m, nHits := k } b).blockCache = [a, b, c] ∧
    (CountBbl (CountBbl { blockCache := [a, b, c], _max_size := 3, bblCount := t,
                          nMisses := m, nHits := k } b) d).blockCache = [d, a, b] := by
  have hf := CountBbl_fields st x
  have hp := push_hit st x hx
  refine ⟨by rw [hf.1, hp], by rw [hf.2.2.1, hp], by rw [hf.2.1, hp],
          hf.2.2.2.2, ?_, ?_⟩ <;>
    simp [CountBbl, BBLCache.push, scanPresent, Ne.symm hab, hda, hdb, hdc,
          List.dropLast]

/-- Witness for C3: deque `[0, 1, 2]` of capacity 3, hitting 1, with the
scenario instantiated at a = 0, b = 1, c = 2, d = 3. -/
theorem C3_hit_no_promotion_witness :
    (CountBbl { blockCache := [0, 1, 2], _max_size := 3, bblCount := 5,
                nMisses := 3, nHits := 2 } 1).blockCache = [0, 1, 2] ∧
    (CountBbl { blockCache := [0, 1, 2], _max_size := 3, bblCount := 5,
                nMisses := 3, nHits := 2 } 1).nMisses = 3 ∧
    (CountBbl { blockCache := [0, 1, 2], _max_size := 3, bblCount := 5,
                nMisses := 3, nHits := 2 } 1).nHits = 2 + 1 ∧
    (CountBbl { blockCache := [0, 1, 2], _max_size := 3, bblCount := 5,
                nMisses := 3, nHits := 2 } 1).bblCount = 5 + 1 ∧
    (CountBbl { blockCache := [0, 1, 2], _max_size := 3, bblCount := 5,
                nMisses := 3, nHits := 2 } 1).blockCache = [0, 1, 2] ∧
    (CountBbl (CountBbl { blockCache := [0, 1, 2], _max_size := 3, bblCount := 5,
                          nMisses := 3, nHits := 2 } 1) 3).blockCache = [3, 0, 1] :=
  C3_hit_no_promotion
    { blockCache := [0, 1, 2], _max_size := 3, bblCount := 5, nMisses := 3, nHits := 2 }
    1 (by decide) 0 1 2 3 5 3 2
    (by decide) (by decide) (by decide) (by decide) (by decide) (by decide)

/-- Claim C4 as stated fails at capacity 0: recording the absent identifier
5 on a fresh capacity-0 cache does increment `nMisses`, but the pushed
identifier is evicted within the same call, so afterwards it is not at the
most-recent end of the deque (the deque is empty). -/
theorem C4_counterexample :
    5 ∉ (BBLCache.init 0).blockCache ∧
    (CountBbl (BBLCache.init 0) 5).nMisses = (BBLCache.init 0).nMisses + 1 ∧
    (CountBbl (BBLCache.init 0) 5).blockCache.head? ≠ some 5 ∧
    (CountBbl (BBLCache.init 0) 5).blockCache = [] := by
  decide

/-- Claim C4 (amended): for every cache with capacity ≥ 1 and every
identifier not currently present, recording it increments `nMisses` by one
and inserts it at the most-recent end of the deque, where it still sits
after the call. -/
theorem C4_miss_inserts_front (c : BBLCache) (b : Nat)
    (hcap : 1 ≤ c._max_size) (hb : b ∉ c.blockCache) :
    (CountBbl c b).nMisses = c.nMisses + 1 ∧
    (CountBbl c b).nHits = c.nHits ∧
    (CountBbl c b).bblCount = c.bblCount + 1 ∧
    (CountBbl c b).blockCache.head? = some b := by
  have hf := CountBbl_fields c b
  by_cases hlen : (b :: c.blockCache).length > c._max_size
  · have hp := push_miss_evict c b hb hlen
    refine ⟨by rw [hf.2.2.1, hp], by rw [hf.2.1, hp], hf.2.2.2.2, ?_⟩
    rw [hf.1, hp]
    rcases hbc : c.blockCache with _ | ⟨y, ys⟩
    · exfalso
      rw [hbc] at hlen
      simp at hlen
      omega
    · simp [List.dropLast]
  · have hp := push_miss_no_evict c b hb hlen
    exact ⟨by rw [hf.2.2.1, hp], by rw [hf.2.1, hp], hf.2.2.2.2,
           by rw [hf.1, hp]; rfl⟩

/-- Witness for the amended C4: a fresh capacity-1 cache, missing on 9. -/
theorem C4_miss_inserts_front_witness :
    (CountBbl (BBLCache.init 1) 9).nMisses = (BBLCache.init 1).nMisses + 1 ∧
    (CountBbl (BBLCache.init 1) 9).nHits = (BBLCache.init 1).nHits ∧
    (CountBbl (BBLCache.init 1) 9).bblCount = (BBLCache.init 1).bblCount + 1 ∧
    (CountBbl (BBLCache.init 1) 9).blockCache.head? = some 9 :=
  C4_miss_inserts_front (BBLCache.init 1) 9 (by decide) (by decide)

/-- Claim C6 (Scenario A): capacity 2, record [A, B, A, C] with A, B, C
pairwise distinct: totalAccesses 4, one hit (the second A), three misses,
final deque most-recent-first [C, B] of size 2. -/
theorem C6_scenario_A (A B C : Nat) (hAB : A ≠ B) (hAC : A ≠ C) (hBC : B ≠ C) :
    (runCalls (BBLCache.init 2) [A, B, A, C]).bblCount = 4 ∧
    (runCalls (BBLCache.init 2) [A, B, A, C]).nHits = 1 ∧
    (runCalls (BBLCache.init 2) [A, B, A, C]).nMisses = 3 ∧
    (runCalls (BBLCache.init 2) [A, B, A, C]).blockCache = [C, B] ∧
    (runCalls (BBLCache.init 2) [A, B, A, C]).get_size = 2 := by
  simp [runCalls, CountBbl, BBLCache.push, BBLCache.init, BBLCache.get_size,
        scanPresent, List.dropLast, hAB, Ne.symm hAB, Ne.symm hAC, Ne.symm hBC]

/-- Witness for C6 at A = 0, B = 1, C = 2. -/
theorem C6_scenario_A_witness :
    (runCalls (BBLCache.init 2) [0, 1, 0, 2]).bblCount = 4 ∧
    (runCalls (BBLCache.init 2) [0, 1, 0, 2]).nHits = 1 ∧
    (runCalls (BBLCache.init 2) [0, 1, 0, 2]).nMisses = 3 ∧
    (runCalls (BBLCache.init 2) [0, 1, 0, 2]).blockCache = [2, 1] ∧
    (runCalls (BBLCache.init 2) [0, 1, 0, 2]).get_size = 2 :=
  C6_scenario_A 0 1 2 (by decide) (by decide) (by decide)

/-- Claim C7 (Scenario B): capacity 1, record [X, Y, X] with X ≠ Y: three
accesses, the insertion of Y evicts X, so the final record of X is again a
miss: no hits, three misses, final deque [X] of size 1. -/
theorem C7_scenario_B (X Y : Nat) (hXY : X ≠ Y) :
    (runCalls (BBLCache.init 1) [X, Y, X]).bblCount = 3 ∧
    (runCalls (BBLCache.init 1) [X, Y, X]).nHits = 0 ∧
    (runCalls (BBLCache.init 1) [X, Y, X]).nMisses = 3 ∧
    (runCalls (BBLCache.init 1) [X, Y, X]).blockCache = [X] ∧
    (runCalls (BBLCache.init 1) [X, Y, X]).get_size = 1 := by
  simp [runCalls, CountBbl, BBLCache.push, BBLCache.init, BBLCache.get_size,
        scanPresent, List.dropLast, hXY, Ne.symm hXY]

/-- Witness for C7 at X = 4, Y = 7. -/
theorem C7_scenario_B_witness :
    (runCalls (BBLCache.init 1) [4, 7, 4]).bblCount = 3 ∧
    (runCalls (BBLCache.init 1) [4, 7, 4]).nHits = 0 ∧
    (runCalls (BBLCache.init 1) [4, 7, 4]).nMisses = 3 ∧
    (runCalls (BBLCache.init 1) [4, 7, 4]).blockCache = [4] ∧
    (runCalls (BBLCache.init 1) [4, 7, 4]).get_size = 1 :=
  C7_scenario_B 4 7 (by decide)

/-! ### Runs of pairwise-distinct identifiers -/

theorem cons_take_dropLast (x : Nat) (l : List Nat) (cap : Nat)
    (h : cap ≤ l.length) :
    (x :: l.take cap).dropLast = (x :: l).take cap := by
  cases cap with
  | zero => simp
  | succ k =>
      have hmin : min (k + 1) l.length = k + 1 := Nat.min_eq_left h
      rw [List.dropLast_eq_take]
      simp [List.length_take, hmin, List.take_take, Nat.min_eq_left (Nat.le_succ k)]

/-- Recording a duplicate-free sequence from a fresh cache of capacity
`cap`: every call is a miss, and the deque is the reversal of the sequence
truncated to its `cap` most recent elements. -/
theorem runCalls_nodup_entries (cap : Nat) (l : List Nat) (hnd : l.Nodup) :
    (runCalls (BBLCache.init cap) l).blockCache = l.reverse.take cap ∧
    (runCalls (BBLCache.init cap) l).nMisses = l.length ∧
    (runCalls (BBLCache.init cap) l).nHits = 0 := by
  induction l using List.reverseRecOn with
  | nil => exact ⟨by simp [runCalls, BBLCache.init], rfl, rfl⟩
  | append_singleton p x ih =>
      obtain ⟨hndp, _, hdisj⟩ := List.nodup_append.mp hnd
      have hxp : x ∉ p := fun hx => hdisj hx (List.mem_singleton_self x)
      obtain ⟨hbc, hms, hhs⟩ := ih hndp
      rw [runCalls_append_one]
      have hmax : (runCalls (BBLCache.init cap) p)._max_size = cap :=
        runCalls_max_size _ _
      have hxs : x ∉ (runCalls (BBLCache.init cap) p).blockCache := by
        rw [hbc]
        intro hmem
        exact hxp (by simpa using List.mem_of_mem_take hmem)
      have hf := CountBbl_fields (runCalls (BBLCache.init cap) p) x
      have hrev : (p ++ [x]).reverse = x :: p.reverse := by simp
      by_cases hlen : (x :: (runCalls (BBLCache.init cap) p).blockCache).length
          > (runCalls (BBLCache.init cap) p)._max_size
      · have hp := push_miss_evict _ x hxs hlen
        have hple : cap ≤ p.length := by
          rw [hbc] at hlen
          rw [hmax] at hlen
          simp [List.length_take] at hlen
          omega
        refine ⟨?_, ?_, ?_⟩
        · rw [hf.1, hp, hrev]
          show (x :: (runCalls (BBLCache.init cap) p).blockCache).dropLast
              = (x :: p.reverse).take cap
          rw [hbc]
          exact cons_take_dropLast x p.reverse cap (by simpa using hple)
        · rw [hf.2.2.1, hp]
          show (runCalls (BBLCache.init cap) p).nMisses + 1 = (p ++ [x]).length
          rw [hms]
          simp
        · rw [hf.2.1, hp]
          exact hhs
      · have hp := push_miss_no_evict _ x hxs hlen
        have hplt : p.length < cap := by
          rw [hbc, hmax] at hlen
          simp [List.length_take] at hlen
          omega
        refine ⟨?_, ?_, ?_⟩
        · rw [hf.1, hp, hrev]
          show x :: (runCalls (BBLCache.init cap) p).blockCache
              = (x :: p.reverse).take cap
          rw [hbc, List.take_of_length_le (by simpa using Nat.le_of_lt hplt),
              List.take_of_length_le (by simp; omega)]
        · rw [hf.2.2.1, hp]
          show (runCalls (BBLCache.init cap) p).nMisses + 1 = (p ++ [x]).length
          rw [hms]
          simp
        · rw [hf.2.1, hp]
          exact hhs

/-- Claim C5 (eviction exactness): with capacity N ≥ 1, recording N + 1
pairwise-distinct identifiers in order leaves the first one absent, all the
later ones present, and the cache exactly full (`get_size = N`). -/
theorem C5_eviction_exactness (N : Nat) (hN : 1 ≤ N) (x : Nat) (xs : List Nat)
    (hnd : (x :: xs).Nodup) (hlen : xs.length = N) :
    x ∉ (runCalls (BBLCache.init N) (x :: xs)).blockCache ∧
    xs ⊆ (runCalls (BBLCache.init N) (x :: xs)).blockCache ∧
    (runCalls (BBLCache.init N) (x :: xs)).get_size = N := by
  obtain ⟨hbc, -, -⟩ := runCalls_nodup_entries N (x :: xs) hnd
  have hrev : (x :: xs).reverse.take N = xs.reverse := by
    rw [List.reverse_cons]
    exact List.take_left' (by simpa using hlen)
  have hbc2 : (runCalls (BBLCache.init N) (x :: xs)).blockCache = xs.reverse := by
    rw [hbc, hrev]
  refine ⟨?_, ?_, ?_⟩
  · rw [hbc2]
    intro hx
    exact (List.nodup_cons.mp hnd).1 (by simpa using hx)
  · intro y hy
    rw [hbc2]
    simpa using hy
  · simp [BBLCache.get_size, hbc2, hlen]

/-- Witness for C5 at N = 2, recording [10, 20, 30]. -/
theorem C5_eviction_exactness_witness :
    10 ∉ (runCalls (BBLCache.init 2) [10, 20, 30]).blockCache ∧
    [20, 30] ⊆ (runCalls (BBLCache.init 2) [10, 20, 30]).blockCache ∧
    (runCalls (BBLCache.init 2) [10, 20, 30]).get_size = 2 :=
  C5_eviction_exactness 2 (by decide) 10 [20, 30] (by decide) (by decide)

/-! ### Runs that never exceed the capacity -/

/-- As long as the number of distinct identifiers recorded stays within the
capacity, no entry is ever evicted: the deque holds exactly the identifiers
seen so far and every miss grew it by one. -/
theorem runCalls_no_evict (cap : Nat) (l : List Nat)
    (hcard : l.toFinset.card ≤ cap) :
    (∀ y, y ∈ (runCalls (BBLCache.init cap) l).blockCache ↔ y ∈ l) ∧
    (runCalls (BBLCache.init cap) l).blockCache.length = l.toFinset.card ∧
    (runCalls (BBLCache.init cap) l).nMisses = l.toFinset.card := by
  induction l using List.reverseRecOn with
  | nil =>
      exact ⟨fun y => by simp [runCalls, BBLCache.init],
             by simp [runCalls, BBLCache.init], by simp [runCalls, BBLCache.init]⟩
  | append_singleton p x ih =>
      have hsub : p.toFinset ⊆ (p ++ [x]).toFinset := by
        rw [List.toFinset_append]
        exact Finset.subset_union_left
      have hcardp : p.toFinset.card ≤ cap :=
        le_trans (Finset.card_le_card hsub) hcard
      obtain ⟨hmem, hlen, hms⟩ := ih hcardp
      rw [runCalls_append_one]
      have hf := CountBbl_fields (runCalls (BBLCache.init cap) p) x
      by_cases hx : x ∈ p
      · have hxs : x ∈ (runCalls (BBLCache.init cap) p).blockCache :=
          (hmem x).mpr hx
        have hp := push_hit _ x hxs
        have htf : (p ++ [x]).toFinset = p.toFinset := by
          rw [List.toFinset_append]
          simp only [List.toFinset_cons, List.toFinset_nil, insert_emptyc_eq]
          exact Finset.union_eq_left.mpr (by simpa using hx)
        refine ⟨?_, ?_, ?_⟩
        · intro y
          rw [hf.1, hp]
          show y ∈ (runCalls (BBLCache.init cap) p).blockCache ↔ y ∈ p ++ [x]
          rw [hmem y, List.mem_append]
          constructor
          · exact Or.inl
          · rintro (hy | hy)
            · exact hy
            · rw [List.mem_singleton] at hy
              rw [hy]
              exact hx
        · rw [hf.1, hp, htf]
          exact hlen
        · rw [hf.2.2.1, hp, htf]
          exact hms
      · have hxs : x ∉ (runCalls (BBLCache.init cap) p).blockCache :=
          fun h => hx ((hmem x).mp h)
        have htf : (p ++ [x]).toFinset = insert x p.toFinset := by
          rw [List.toFinset_append]
          simp only [List.toFinset_cons, List.toFinset_nil, insert_emptyc_eq]
          rw [Finset.union_comm, ← Finset.insert_eq]
        have htc : (p ++ [x]).toFinset.card = p.toFinset.card + 1 := by
          rw [htf, Finset.card_insert_of_not_mem (by simpa using hx)]
        have hmax : (runCalls (BBLCache.init cap) p)._max_size = cap :=
          runCalls_max_size _ _
        have hnoev : ¬ (x :: (runCalls (BBLCache.init cap) p).blockCache).length
            > (runCalls (BBLCache.init cap) p)._max_size := by
          rw [hmax]
          simp only [List.length_cons, hlen]
          omega
        have hp := push_miss_no_evict _ x hxs hnoev
        refine ⟨?_, ?_, ?_⟩
        · intro y
          rw [hf.1, hp]
          show y ∈ x :: (runCalls (BBLCache.init cap) p).blockCache ↔ y ∈ p ++ [x]
          rw [List.mem_cons, hmem y, List.mem_append, List.mem_singleton, or_comm]
        · rw [hf.1, hp]
          show (x :: (runCalls (BBLCache.init cap) p).blockCache).length
              = (p ++ [x]).toFinset.card
          rw [List.length_cons, hlen, htc]
        · rw [hf.2.2.1, hp]
          show (runCalls (BBLCache.init cap) p).nMisses + 1
              = (p ++ [x]).toFinset.card
          rw [hms, htc]

/-- Claim C10 as stated fails at knob value n = -2: `_max_size` becomes
2^32 - 2, and recording the 2^32 - 1 pairwise-distinct identifiers
[2^32 - 2, ..., 1, 0] — fewer than 2^32 record calls — evicts the first
recorded identifier 2^32 - 2, which is therefore no longer present. -/
theorem C10_counterexample :
    ((-2 : Int) < 0) ∧
    ((List.range (2 ^ 32 - 1)).reverse).length < 2 ^ 32 ∧
    (2 ^ 32 - 2) ∈ (List.range (2 ^ 32 - 1)).reverse ∧
    (2 ^ 32 - 2) ∉ (runCalls (mkCacheFromKnob (-2))
        ((List.range (2 ^ 32 - 1)).reverse)).blockCache := by
  refine ⟨by norm_num, by simp, by simp, ?_⟩
  have hnd : ((List.range (2 ^ 32 - 1)).reverse).Nodup :=
    List.nodup_reverse.mpr (List.nodup_range _)
  have hcap : int32ToUInt32 (-2) = 2 ^ 32 - 2 := by
    unfold int32ToUInt32
    omega
  have h := runCalls_nodup_entries (int32ToUInt32 (-2))
    ((List.range (2 ^ 32 - 1)).reverse) hnd
  rw [show mkCacheFromKnob (-2) = BBLCache.init (int32ToUInt32 (-2)) from rfl,
      h.1, List.reverse_reverse, hcap, List.take_range]
  rw [List.mem_range]
  omega

/-- Claim C10 (amended): a negative `INT32` knob value n is converted to
the `UINT32` capacity n mod 2^32 = n + 2^32 (so -1 gives 4294967295), and
for every record sequence whose number of distinct identifiers stays within
that capacity, no entry is ever evicted: every recorded identifier is still
present at the end, the deque length equals the number of distinct
identifiers recorded, and `nMisses` equals that same number. -/
theorem C10_negative_capacity_amended (n : Int) (hneg : n < 0)
    (hrange : -(2 : Int) ^ 31 ≤ n) (l : List Nat)
    (hl : l.toFinset.card ≤ int32ToUInt32 n) :
    (mkCacheFromKnob n)._max_size = (n % (2 : Int) ^ 32).toNat ∧
    int32ToUInt32 n = (n + 2 ^ 32).toNat ∧
    l ⊆ (runCalls (mkCacheFromKnob n) l).blockCache ∧
    (runCalls (mkCacheFromKnob n) l).blockCache.length = l.toFinset.card ∧
    (runCalls (mkCacheFromKnob n) l).nMisses = l.toFinset.card := by
  obtain ⟨hmem, hlen, hms⟩ := runCalls_no_evict (int32ToUInt32 n) l hl
  refine ⟨rfl, ?_, ?_, hlen, hms⟩
  · unfold int32ToUInt32
    omega
  · intro y hy
    exact (hmem y).mpr hy

/-- Witness for the amended C10 at n = -1 and the sequence [5, 5, 7]. -/
theorem C10_negative_capacity_amended_witness :
    (mkCacheFromKnob (-1))._max_size = ((-1 : Int) % (2 : Int) ^ 32).toNat ∧
    int32ToUInt32 (-1) = ((-1 : Int) + 2 ^ 32).toNat ∧
    [5, 5, 7] ⊆ (runCalls (mkCacheFromKnob (-1)) [5, 5, 7]).blockCache ∧
    (runCalls (mkCacheFromKnob (-1)) [5, 5, 7]).blockCache.length
      = [5, 5, 7].toFinset.card ∧
    (runCalls (mkCacheFromKnob (-1)) [5, 5, 7]).nMisses
      = [5, 5, 7].toFinset.card :=
  C10_negative_capacity_amended (-1) (by norm_num) (by norm_num) [5, 5, 7]
    (by show [5, 5, 7].toFinset.card ≤ ((-1 : Int) % (2 : Int) ^ 32).toNat; norm_num)
